import Mathlib

/-!
# Verification of the epistemology-graph CSV-to-graph pipeline

Shallow embedding of `src/gemini3_2.py`: the two-strategy CSV record
parser (`load_methodologies_from_csv`), the graph builder (`build_graph`)
and the statistics aggregator (`calculate_statistics`), together with
theorems settling the frozen claims about them.

Machine strings are modelled as Lean `String` (a wrapper around
`List Char`); Python's `str.strip`, `str.split`, `str.lower` and
`str.join` are modelled by the `py*` helpers below, defined directly on
the character list so that all definitions evaluate by kernel reduction.
-/

/-- Model of Python `str.strip()`: drop whitespace from both ends.
(Python also strips `\f`/`\v`, which `Char.isWhitespace` omits; no input
in this development contains those characters.) -/
def pyStrip (s : String) : String :=
  ⟨((s.data.dropWhile Char.isWhitespace).reverse.dropWhile Char.isWhitespace).reverse⟩

/-- Model of Python `str.split(c)` for a one-character separator:
split at every occurrence, keeping empty pieces (so `"a,,b"` gives
`["a", "", "b"]` and `""` gives `[""]`). -/
def pySplit (c : Char) (s : String) : List String :=
  (s.data.splitOn c).map (fun l => ⟨l⟩)

/-- Model of Python `str.lower()` (ASCII case folding). -/
def pyLower (s : String) : String :=
  ⟨s.data.map Char.toLower⟩

/-- Model of Python `sep.join(parts)`. -/
def pyJoin (sep : String) : List String → String
  | [] => ""
  | [s] => s
  | s :: rest => s ++ sep ++ pyJoin sep rest

/-- The comma-split-and-clean used on the adoption-domains field:
`[field.strip() for field in domains.split(',') if field.strip()]`. -/
def splitClean (s : String) : List String :=
  ((pySplit ',' s).map pyStrip).filter (fun t => t != "")

/-- One parsed methodology record (a `knowledge_base` entry of
`load_methodologies_from_csv`): the dictionary with keys `name`,
`origin`, `description`, `adopted_by`. -/
structure Entry where
  name : String
  origin : String
  description : String
  adopted_by : List String
deriving DecidableEq

/-- Strategy 1 row transform (`gemini3_2.py` lines 124-146): given the
resolved column indices, a dataframe row (cells are `none` for NaN) is
skipped when any required cell is NaN; otherwise all three fields are
read, the name and origin are stripped, the domains string is
comma-split-and-cleaned, and the derived description is computed.  The
description embeds the raw (unstripped) origin cell, exactly as the
source f-string `f"Originated in {origin}. ..."` does before
`str(origin).strip()` is stored. -/
def transform1Row (im io idm : Nat) (row : List (Option String)) : Option Entry :=
  match row.getD im none, row.getD io none, row.getD idm none with
  | some m, some o, some d =>
    some { name := pyStrip m
           origin := pyStrip o
           description := "Originated in " ++ o ++ ". Applied in: " ++
             toString (splitClean d).length ++ " domains"
           adopted_by := splitClean d }
  | _, _, _ => none

/-- Strategy 1 dataframe loop: process every row, dropping skipped ones. -/
def transform1 (im io idm : Nat) (rows : List (List (Option String))) : List Entry :=
  rows.filterMap (transform1Row im io idm)

/-- Strategy 2 row transform (`gemini3_2.py` lines 59-92): rows with
fewer than 3 fields are skipped; with more than 3 fields the fields from
index 2 on are re-joined with `", "`; all fields are stripped, a row
with an empty (falsy) field is skipped, and the domains string is
comma-split-and-cleaned. -/
def transform2Row : List String → Option Entry
  | m :: o :: d :: rest =>
    let method := pyStrip m
    let origin := pyStrip o
    let domains :=
      match rest with
      | [] => pyStrip d
      | _ :: _ => pyStrip (pyJoin ", " (d :: rest))
    if method == "" || origin == "" || domains == "" then none
    else
      some { name := method
             origin := origin
             description := "Originated in " ++ origin ++ ". Applied in: " ++
               toString (splitClean domains).length ++ " domains"
             adopted_by := splitClean domains }
  | _ => none

/-- Strategy 2 reader loop over the rows produced by `csv.reader`. -/
def transform2 (rows : List (List String)) : List Entry :=
  rows.filterMap transform2Row

/-- The three required column names (`required_cols`). -/
def requiredCols : List String :=
  ["Method", "Domain of Origin", "Primary Application Domains"]

/-- The schema diagnostic emitted by
`st.error(f"Missing column: {req_col}. Found: {df.columns.tolist()}")`. -/
structure SchemaError where
  missing : String
  found : List String
deriving DecidableEq

/-- Case-insensitive column lookup: index of the first header column
whose lower-casing matches the required name (the source builds a
lower-cased name map and indexes rows by the matched label; for headers
without case-insensitive duplicates this is that column's position). -/
def findCol (req : String) : List String → Option Nat
  | [] => none
  | c :: rest =>
    if pyLower c == pyLower req then some 0
    else (findCol req rest).map (fun i => i + 1)

/-- Column validation (`gemini3_2.py` lines 104-121): resolve the three
required columns case-insensitively, failing on the first one missing. -/
def checkColumns (header : List String) : Except SchemaError (Nat × Nat × Nat) :=
  match findCol "Method" header with
  | none => .error ⟨"Method", header⟩
  | some im =>
    match findCol "Domain of Origin" header with
    | none => .error ⟨"Domain of Origin", header⟩
    | some io =>
      match findCol "Primary Application Domains" header with
      | none => .error ⟨"Primary Application Domains", header⟩
      | some idm => .ok (im, io, idm)

/-- Strategy 1 processing of a successfully parsed dataframe: either the
transformed records, or no records plus the schema diagnostic. -/
def loadFromDf (header : List String) (rows : List (List (Option String))) :
    List Entry × Option SchemaError :=
  match checkColumns header with
  | .error e => ([], some e)
  | .ok (im, io, idm) => (transform1 im io idm rows, none)

/-- Modelled from pandas `read_csv(engine='python', on_bad_lines='skip',
quotechar='"', escapechar='\\')` for inputs that contain no quote or
escape characters.  `nidx` is the number of implicit leading row-index
fields (see `parseCsvStrict`): each data line's first `nidx` fields are
the row index and are dropped; the remaining fields are the column
cells, with empty cells becoming missing (NaN) and short lines padded
with missing values; a line with more fields than index plus header is
a bad line and is skipped. -/
def parseCells (nidx n : Nat) (line : String) : Option (List (Option String)) :=
  let fs := pySplit ',' line
  if fs.length > nidx + n then none
  else
    let cells := fs.drop nidx
    some ((cells.map (fun f => if f == "" then none else some f)) ++
      List.replicate (n - cells.length) none)

/-- Whole-file strategy 1 parse: the first non-blank line is the
header.  Modelled from pandas index-column inference (`index_col`
unset): when the first data row has more fields than the header, the
extra count of leading fields becomes an implicit row (Multi)Index for
the whole file, and every data row's leading index fields are dropped
(so such a first row is loaded with its columns shifted, not skipped);
bad-line detection applies to the widened index-plus-header row format.
An input with no lines at all fails (pandas raises `EmptyDataError`). -/
def parseCsvStrict (input : String) : Option (List String × List (List (Option String))) :=
  match (pySplit '\n' input).filter (fun l => l != "") with
  | [] => none
  | header :: rest =>
    let hs := pySplit ',' header
    let nidx :=
      match rest with
      | [] => 0
      | l :: _ => (pySplit ',' l).length - hs.length
    some (hs, rest.filterMap (parseCells nidx hs.length))

/-- The full loader `load_methodologies_from_csv` on raw text, for
inputs on which strategy 1 parses at whole-file level (all inputs used
in this development; on a whole-file failure the source falls back to
strategy 2, whose per-row loop is modelled by `transform2`).  Returns
the knowledge base together with the optional schema diagnostic. -/
def load_methodologies_from_csv (input : String) : List Entry × Option SchemaError :=
  match parseCsvStrict input with
  | some (header, rows) => loadFromDf header rows
  | none => ([], none)

/-!
## Graph model

`build_graph` (`gemini3_2.py` lines 156-253) fills a `networkx.DiGraph`.
A `DiGraph` is modelled as two insertion-ordered association lists keyed
by node id and by directed node pair; `add_node`/`add_edge` on an
existing key overwrite the stored attributes in place (keeping the key's
position), otherwise they append.
-/

/-- Attributes attached to a node by `G.add_node`. -/
structure NodeAttrs where
  group : String
  title : String
  shape : String
  size : Nat
  color : String
deriving DecidableEq

/-- Attributes attached to an edge by `G.add_edge`. -/
structure EdgeAttrs where
  title : String
  color : String
  width : Nat
  dashes : Bool
deriving DecidableEq

/-- The directed graph: nodes and edges in insertion order, keyed by
node id / ordered node pair. -/
structure Graph where
  nodes : List (String × NodeAttrs)
  edges : List ((String × String) × EdgeAttrs)
deriving DecidableEq

/-- `id in G` on a `networkx` graph: node membership. -/
def Graph.hasNode (G : Graph) (id : String) : Bool :=
  G.nodes.any (fun p => p.1 == id)

/-- `G.add_node(id, **attrs)`: overwrite the attributes if the node
exists, else append it. -/
def Graph.addNode (G : Graph) (id : String) (a : NodeAttrs) : Graph :=
  { G with nodes :=
      if G.hasNode id then
        G.nodes.map (fun p => if p.1 == id then (id, a) else p)
      else G.nodes ++ [(id, a)] }

/-- `G.add_edge(u, v, **attrs)`: overwrite the attributes if the edge
exists, else append it (both endpoints already exist wherever the source
calls this). -/
def Graph.addEdge (G : Graph) (u v : String) (a : EdgeAttrs) : Graph :=
  { G with edges :=
      if G.edges.any (fun p => p.1 == (u, v)) then
        G.edges.map (fun p => if p.1 == (u, v) then ((u, v), a) else p)
      else G.edges ++ [((u, v), a)] }

/-- Attribute lookup for an edge key. -/
def Graph.lookupEdge (G : Graph) (k : String × String) : Option EdgeAttrs :=
  (G.edges.find? (fun p => p.1 == k)).map (fun p => p.2)

/-- The record filter of `build_graph`: a record is processed unless a
truthy `filter_origin`/`filter_method` differs from its origin/name or
its adoption list is shorter than `min_connections` (a `none` or empty
filter string is falsy in Python and disables that filter). -/
def passes (fo fm : Option String) (mc : Nat) (e : Entry) : Bool :=
  (match fo with
   | none => true
   | some s => s == "" || e.origin == s) &&
  (match fm with
   | none => true
   | some s => s == "" || e.name == s) &&
  (mc ≤ e.adopted_by.length)

/-- Attributes of an origin `Field` node (`gemini3_2.py` lines 185-195). -/
def originNodeAttrs (origin : String) : NodeAttrs :=
  { group := "Field"
    title := "🔬 ORIGIN DOMAIN\n" ++ origin
    shape := "dot"
    size := 25
    color := "#FF6B6B" }

/-- The formatted method tooltip (`gemini3_2.py` lines 197-210): name,
origin, adoption count, and a preview of the first 8 adopters with an
"... and N more domains" marker when more than 8 exist. -/
def methodTooltip (method origin : String) (adopters : List String) : String :=
  let adoptersText := pyJoin "\n" ((adopters.take 8).map (fun a => "  • " ++ a))
  let adoptersText' :=
    if adopters.length > 8 then
      adoptersText ++ "\n  • ... and " ++ toString (adopters.length - 8) ++ " more domains"
    else adoptersText
  "📦 METHOD: " ++ method ++ "\n\n🔬 Origin: " ++ origin ++
    "\n\n📊 Applied in " ++ toString adopters.length ++ " domains:\n" ++ adoptersText'

/-- Attributes of a `Method` node (`gemini3_2.py` lines 212-219). -/
def methodNodeAttrs (method origin : String) (adopters : List String) : NodeAttrs :=
  { group := "Method"
    title := methodTooltip method origin adopters
    shape := "square"
    size := 20
    color := "#4ECDC4" }

/-- Attributes of an adopter `Field` node (`gemini3_2.py` lines 232-241). -/
def adopterNodeAttrs (adopter : String) : NodeAttrs :=
  { group := "Field"
    title := "<b>Field: " ++ adopter ++ "</b>"
    shape := "dot"
    size := 20
    color := "#FF6B6B" }

/-- The solid `Originated In` edge attributes. -/
def originatedEdgeAttrs : EdgeAttrs :=
  { title := "Originated In", color := "#555555", width := 2, dashes := false }

/-- The dashed `Adopted By` edge attributes. -/
def adoptedEdgeAttrs : EdgeAttrs :=
  { title := "Adopted By", color := "#aaaaaa", width := 1, dashes := true }

/-- The adopter loop of `build_graph` (lines 231-251): upsert each
adopter as a `Field` node only when absent, then insert/overwrite the
dashed `method → adopter` edge. -/
def addAdopters (method : String) (adopters : List String) (G : Graph) : Graph :=
  adopters.foldl
    (fun g a =>
      let g' := if g.hasNode a then g else g.addNode a (adopterNodeAttrs a)
      g'.addEdge method a adoptedEdgeAttrs)
    G

/-- Processing of one record by `build_graph`: skip unless it passes the
filters; otherwise add the guarded origin `Field` node, the unguarded
`Method` node, the solid origin edge, and the adopters. -/
def processEntry (fo fm : Option String) (mc : Nat) (G : Graph) (e : Entry) : Graph :=
  if passes fo fm mc e then
    let G1 := if G.hasNode e.origin then G else G.addNode e.origin (originNodeAttrs e.origin)
    let G2 := G1.addNode e.name (methodNodeAttrs e.name e.origin e.adopted_by)
    let G3 := G2.addEdge e.origin e.name originatedEdgeAttrs
    addAdopters e.name e.adopted_by G3
  else G

/-- `build_graph(data, filter_origin, filter_method, min_connections)`. -/
def build_graph (data : List Entry) (fo fm : Option String) (mc : Nat) : Graph :=
  data.foldl (processEntry fo fm mc) ⟨[], []⟩

/-!
## Statistics model

`calculate_statistics` (`gemini3_2.py` lines 313-335) counts origin and
adopter frequencies with `pd.Series(...).value_counts()`.  Modelled from
pandas `Series.value_counts`: distinct values keyed in order of first
appearance with their multiplicities, sorted by count descending with a
stable sort (so ties keep first-encountered order), and `head(5)` takes
the first five.
-/

/-- Distinct values of a list in order of first appearance. -/
def uniqueInOrder : List String → List String
  | [] => []
  | x :: xs => x :: (uniqueInOrder xs).filter (fun y => y != x)

/-- The (value, multiplicity) pairs in order of first appearance. -/
def pairsOf (l : List String) : List (String × Nat) :=
  (uniqueInOrder l).map (fun k => (k, l.count k))

/-- Count-descending comparison used to sort the pairs. -/
def byCountGE (p q : String × Nat) : Prop := q.2 ≤ p.2

instance : DecidableRel byCountGE := fun p q => Nat.decLe q.2 p.2

/-- Model of `pd.Series(l).value_counts()` (see the section comment). -/
def valueCounts (l : List String) : List (String × Nat) :=
  List.insertionSort byCountGE (pairsOf l)

/-- The statistics dictionary returned by `calculate_statistics`. -/
structure Stats where
  total_methods : Nat
  total_origins : Nat
  total_adopting_fields : Nat
  top_origins : List (String × Nat)
  top_adopters : List (String × Nat)
deriving DecidableEq

/-- `calculate_statistics(data)`: empty/zeroed on no data, else the
counts and the two `value_counts().head(5)` rankings. -/
def calculate_statistics (data : List Entry) : Stats :=
  if data.isEmpty then ⟨0, 0, 0, [], []⟩
  else
    let origins := data.map (fun e => e.origin)
    let adopters := (data.map (fun e => e.adopted_by)).flatten
    { total_methods := data.length
      total_origins := (uniqueInOrder origins).length
      total_adopting_fields := (uniqueInOrder adopters).length
      top_origins := (valueCounts origins).take 5
      top_adopters := (valueCounts adopters).take 5 }

/-- Index of the first occurrence of a value in a list. -/
def firstIdx (l : List String) (a : String) : Nat :=
  l.findIdx (fun x => x == a)

/-- Number of `Method`-kind nodes in a graph. -/
def methodNodeCount (G : Graph) : Nat :=
  (G.nodes.filter (fun p => p.2.group == "Method")).length

/-- Number of `Field`-kind nodes in a graph. -/
def fieldNodeCount (G : Graph) : Nat :=
  (G.nodes.filter (fun p => p.2.group == "Field")).length

/-- Names of the records that pass the filters, in input order. -/
def passingNames (data : List Entry) (fo fm : Option String) (mc : Nat) : List String :=
  (data.filter (passes fo fm mc)).map (fun e => e.name)

/-!
## Parser lemmas and claims about the record parser
-/

/-- Every entry of a comma-split-and-cleaned list is non-empty. -/
theorem mem_splitClean_ne_empty {s str : String} (h : s ∈ splitClean str) : s ≠ "" := by
  have := List.of_mem_filter (p := fun t => t != "") h
  simpa using this

/-- Inversion for the strategy 2 row transform: a produced entry comes
from a row of at least three fields whose stripped fields are non-empty,
and its fields are exactly the transform's outputs. -/
theorem transform2Row_eq_some {row : List String} {e : Entry}
    (h : transform2Row row = some e) :
    ∃ m o d rest, row = m :: o :: d :: rest ∧
      pyStrip m ≠ "" ∧ pyStrip o ≠ "" ∧
      ∃ domains, (domains = match rest with
          | [] => pyStrip d
          | _ :: _ => pyStrip (pyJoin ", " (d :: rest))) ∧
        domains ≠ "" ∧
        e = { name := pyStrip m, origin := pyStrip o,
              description := "Originated in " ++ pyStrip o ++ ". Applied in: " ++
                toString (splitClean domains).length ++ " domains",
              adopted_by := splitClean domains } := by
  rcases row with _ | ⟨m, row1⟩
  · exact absurd h (by simp [transform2Row])
  rcases row1 with _ | ⟨o, row2⟩
  · exact absurd h (by simp [transform2Row])
  rcases row2 with _ | ⟨d, rest⟩
  · exact absurd h (by simp [transform2Row])
  refine ⟨m, o, d, rest, rfl, ?_⟩
  rcases rest with _ | ⟨r, rest'⟩
  · simp only [transform2Row] at h
    split at h
    · exact absurd h (by simp)
    · rename_i hc
      simp only [Bool.or_eq_true, beq_iff_eq, not_or] at hc
      injection h with h'
      obtain ⟨⟨hc1, hc2⟩, hc3⟩ := hc
      exact ⟨hc1, hc2, pyStrip d, rfl, hc3, h'.symm⟩
  · simp only [transform2Row] at h
    split at h
    · exact absurd h (by simp)
    · rename_i hc
      simp only [Bool.or_eq_true, beq_iff_eq, not_or] at hc
      injection h with h'
      obtain ⟨⟨hc1, hc2⟩, hc3⟩ := hc
      exact ⟨hc1, hc2, pyStrip (pyJoin ", " (d :: r :: rest')), rfl, hc3, h'.symm⟩

/-- Inversion for the strategy 1 row transform. -/
theorem transform1Row_eq_some {im io idm : Nat} {row : List (Option String)} {e : Entry}
    (h : transform1Row im io idm row = some e) :
    ∃ m o d, row.getD im none = some m ∧ row.getD io none = some o ∧
      row.getD idm none = some d ∧
      e = { name := pyStrip m, origin := pyStrip o,
            description := "Originated in " ++ o ++ ". Applied in: " ++
              toString (splitClean d).length ++ " domains",
            adopted_by := splitClean d } := by
  unfold transform1Row at h
  rcases h1 : row.getD im none with _ | m <;> rw [h1] at h <;>
    rcases h2 : row.getD io none with _ | o <;> rw [h2] at h <;>
      rcases h3 : row.getD idm none with _ | d <;> rw [h3] at h <;>
        simp_all

/-- C2, counterexample.  The claimed invariant fails on the code: under
the strict strategy the input row `Bayes, ,Medicine` (a whitespace-only
origin cell, which is not NaN) produces a record whose trimmed origin is
empty, and under the lenient fallback the four-field row
`Bayes,Stats,, ` produces a record whose adoptedBy list is empty. -/
theorem strict_strategy_empty_origin_counterexample :
    ((load_methodologies_from_csv
        "Method,Domain of Origin,Primary Application Domains\nBayes, ,Medicine").1.map
      (fun e => e.origin) = [""]) ∧
    ((transform2 [["Bayes", "Stats", "", " "]]).map (fun e => e.adopted_by) = [[]]) := by
  decide

/-- C2, amended.  Every record produced by the lenient fallback has a
non-empty (stored trimmed) name and origin and only non-empty adoptedBy
entries, and invalid rows are dropped without aborting; the strict
strategy guarantees only that adoptedBy entries are non-empty (it checks
cells for NaN, not for emptiness after trimming, and neither strategy
rejects an empty adoptedBy list). -/
theorem parser_record_invariant :
    (∀ (rows : List (List String)), ∀ e ∈ transform2 rows,
      e.name ≠ "" ∧ e.origin ≠ "" ∧ ∀ s ∈ e.adopted_by, s ≠ "") ∧
    (∀ (im io idm : Nat) (rows : List (List (Option String))),
      ∀ e ∈ transform1 im io idm rows, ∀ s ∈ e.adopted_by, s ≠ "") := by
  constructor
  · intro rows e he
    obtain ⟨row, -, hrow⟩ := List.mem_filterMap.mp he
    obtain ⟨m, o, d, rest, -, hm, ho, domains, -, -, hE⟩ := transform2Row_eq_some hrow
    subst hE
    exact ⟨hm, ho, fun s hs => mem_splitClean_ne_empty hs⟩
  · intro im io idm rows e he
    obtain ⟨row, -, hrow⟩ := List.mem_filterMap.mp he
    obtain ⟨m, o, d, -, -, -, hE⟩ := transform1Row_eq_some hrow
    subst hE
    exact fun s hs => mem_splitClean_ne_empty hs

/-- C2, witness for the amended invariant at a concrete lenient-strategy
row. -/
theorem parser_record_invariant_witness :
    (⟨"Bayes", "Stats", "Originated in Stats. Applied in: 1 domains", ["Medicine"]⟩ : Entry)
        ∈ transform2 [["Bayes", "Stats", "Medicine"]] ∧
    (("Bayes" : String) ≠ "" ∧ ("Stats" : String) ≠ "" ∧
      ∀ s ∈ (["Medicine"] : List String), s ≠ "") := by
  refine ⟨by decide, ?_⟩
  have h := parser_record_invariant.1 [["Bayes", "Stats", "Medicine"]]
    ⟨"Bayes", "Stats", "Originated in Stats. Applied in: 1 domains", ["Medicine"]⟩ (by decide)
  exact h

/-- C1, counterexample.  On the exact E2E scenario 1 input the strict
strategy succeeds, but pandas index-column inference turns the 5-field
data row's two extra leading fields (`Bayesian Inference`,
`Statistics`) into an implicit row index, so the one record loaded has
the shifted fields name `Medicine`, origin `Finance`, adoptedBy
`[Law]` — not the record the claim states. -/
theorem e2e_scenario1_counterexample :
    ((load_methodologies_from_csv
      "Method,Domain of Origin,Primary Application Domains\nBayesian Inference,Statistics,Medicine, Finance, Law").1.map
        (fun e => (e.name, e.origin, e.adopted_by)))
      = [("Medicine", "Finance", ["Law"])] ∧
    (("Medicine", "Finance", ["Law"]) : String × String × List String)
      ≠ ("Bayesian Inference", "Statistics", ["Medicine", "Finance", "Law"]) := by
  decide

/-- C1, amended.  Parsing that input yields exactly one record, but
with shifted fields: the strict strategy's index-column inference makes
the first data row's two extra leading fields an implicit row index, so
the record has name `Medicine`, origin `Finance` (the raw cell
` Finance` is embedded untrimmed in the description), and adoptedBy
`[Law]`; building the graph from it with no filters yields 1 Method
node (`Medicine`), 1 origin Field node (`Finance`), 1 adopter Field
node (`Law`), 1 solid edge, and 1 dashed edge. -/
theorem e2e_scenario1_amended :
    load_methodologies_from_csv
        "Method,Domain of Origin,Primary Application Domains\nBayesian Inference,Statistics,Medicine, Finance, Law"
      = ([⟨"Medicine", "Finance",
          "Originated in  Finance. Applied in: 1 domains", ["Law"]⟩], none) ∧
    ((build_graph
        (load_methodologies_from_csv
          "Method,Domain of Origin,Primary Application Domains\nBayesian Inference,Statistics,Medicine, Finance, Law").1
        none none 0).nodes.map (fun p => (p.1, p.2.group))
      = [("Finance", "Field"), ("Medicine", "Method"), ("Law", "Field")]) ∧
    methodNodeCount (build_graph
        (load_methodologies_from_csv
          "Method,Domain of Origin,Primary Application Domains\nBayesian Inference,Statistics,Medicine, Finance, Law").1
        none none 0) = 1 ∧
    fieldNodeCount (build_graph
        (load_methodologies_from_csv
          "Method,Domain of Origin,Primary Application Domains\nBayesian Inference,Statistics,Medicine, Finance, Law").1
        none none 0) = 2 ∧
    ((build_graph
        (load_methodologies_from_csv
          "Method,Domain of Origin,Primary Application Domains\nBayesian Inference,Statistics,Medicine, Finance, Law").1
        none none 0).edges.map (fun p => (p.1, p.2.dashes))
      = [(("Finance", "Medicine"), false), (("Medicine", "Law"), true)]) := by
  decide

/-- `findCol` finds no column exactly when no header column matches the
required name case-insensitively. -/
theorem findCol_eq_none_iff (req : String) :
    ∀ header : List String,
      findCol req header = none ↔ ∀ c ∈ header, pyLower c ≠ pyLower req
  | [] => by simp [findCol]
  | c :: rest => by
    simp only [findCol, List.mem_cons]
    split
    · rename_i hbeq
      simp only [beq_iff_eq] at hbeq
      simp [hbeq]
    · rename_i hbeq
      simp only [beq_iff_eq] at hbeq
      simp only [Option.map_eq_none', findCol_eq_none_iff req rest]
      constructor
      · intro h x hx
        rcases hx with hx | hx
        · exact hx ▸ hbeq
        · exact h x hx
      · intro h x hx
        exact h x (Or.inr hx)

/-- C4, confirmed.  If any of the three required columns is absent from
the header under case-insensitive matching, strategy 1 returns no
records and the diagnostic names a missing required column (one with no
case-insensitive match in the header) together with the columns actually
found. -/
theorem loadFromDf_missing_column (header : List String) (rows : List (List (Option String)))
    (h : ∃ req ∈ requiredCols, ∀ c ∈ header, pyLower c ≠ pyLower req) :
    (loadFromDf header rows).1 = [] ∧
    ∃ err : SchemaError, (loadFromDf header rows).2 = some err ∧
      err.missing ∈ requiredCols ∧
      (∀ c ∈ header, pyLower c ≠ pyLower err.missing) ∧
      err.found = header := by
  obtain ⟨req, hreq, hnone⟩ := h
  have habsent : findCol req header = none := (findCol_eq_none_iff req header).mpr hnone
  unfold loadFromDf checkColumns
  rcases h1 : findCol "Method" header with _ | i1
  · exact ⟨rfl, ⟨"Method", header⟩, rfl, by simp [requiredCols],
      (findCol_eq_none_iff "Method" header).mp h1, rfl⟩
  rcases h2 : findCol "Domain of Origin" header with _ | i2
  · exact ⟨rfl, ⟨"Domain of Origin", header⟩, rfl, by simp [requiredCols],
      (findCol_eq_none_iff "Domain of Origin" header).mp h2, rfl⟩
  rcases h3 : findCol "Primary Application Domains" header with _ | i3
  · exact ⟨rfl, ⟨"Primary Application Domains", header⟩, rfl, by simp [requiredCols],
      (findCol_eq_none_iff "Primary Application Domains" header).mp h3, rfl⟩
  exfalso
  simp only [requiredCols, List.mem_cons, List.not_mem_nil, or_false] at hreq
  rcases hreq with rfl | rfl | rfl
  · rw [h1] at habsent; exact Option.noConfusion habsent
  · rw [h2] at habsent; exact Option.noConfusion habsent
  · rw [h3] at habsent; exact Option.noConfusion habsent

/-- C4, witness: a header missing `Domain of Origin`. -/
theorem loadFromDf_missing_column_witness :
    (∃ req ∈ requiredCols,
      ∀ c ∈ (["Method", "Primary Application Domains"] : List String),
        pyLower c ≠ pyLower req) ∧
    ((loadFromDf ["Method", "Primary Application Domains"] []).1 = [] ∧
      ∃ err : SchemaError,
        (loadFromDf ["Method", "Primary Application Domains"] []).2 = some err ∧
        err.missing ∈ requiredCols ∧
        (∀ c ∈ (["Method", "Primary Application Domains"] : List String),
          pyLower c ≠ pyLower err.missing) ∧
        err.found = ["Method", "Primary Application Domains"]) :=
  ⟨by decide, loadFromDf_missing_column ["Method", "Primary Application Domains"] [] (by decide)⟩

/-- C5, counterexample.  Under the strict strategy the row
`Bayes, Stats ,Medicine` (origin cell carrying surrounding whitespace)
produces a record whose description embeds the raw cell, not the trimmed
origin field, so the description is not the claimed function of the
record's own origin. -/
theorem description_not_pure_counterexample :
    ((load_methodologies_from_csv
        "Method,Domain of Origin,Primary Application Domains\nBayes, Stats ,Medicine").1.map
      (fun e => (e.description,
        "Originated in " ++ e.origin ++ ". Applied in: " ++
          toString e.adopted_by.length ++ " domains")))
      = [("Originated in  Stats . Applied in: 1 domains",
          "Originated in Stats. Applied in: 1 domains")] ∧
    ("Originated in  Stats . Applied in: 1 domains" : String)
      ≠ "Originated in Stats. Applied in: 1 domains" := by
  decide

/-- C5, amended.  Every lenient-strategy record's description is the
claimed pure function of the record's (trimmed) origin and its adoptedBy
length; every strict-strategy record's description instead embeds the
raw origin cell, whose trim is the stored origin field, so the two
coincide exactly when the cell carries no surrounding whitespace. -/
theorem description_derivation :
    (∀ (rows : List (List String)), ∀ e ∈ transform2 rows,
      e.description = "Originated in " ++ e.origin ++ ". Applied in: " ++
        toString e.adopted_by.length ++ " domains") ∧
    (∀ (im io idm : Nat) (rows : List (List (Option String))),
      ∀ e ∈ transform1 im io idm rows,
      ∃ raw : String, e.origin = pyStrip raw ∧
        e.description = "Originated in " ++ raw ++ ". Applied in: " ++
          toString e.adopted_by.length ++ " domains") := by
  constructor
  · intro rows e he
    obtain ⟨row, -, hrow⟩ := List.mem_filterMap.mp he
    obtain ⟨m, o, d, rest, -, -, -, domains, -, -, hE⟩ := transform2Row_eq_some hrow
    subst hE
    rfl
  · intro im io idm rows e he
    obtain ⟨row, -, hrow⟩ := List.mem_filterMap.mp he
    obtain ⟨m, o, d, -, -, -, hE⟩ := transform1Row_eq_some hrow
    subst hE
    exact ⟨o, rfl, rfl⟩

/-- C5, witness at a concrete lenient-strategy record. -/
theorem description_derivation_witness :
    (⟨"Bayes", "Stats", "Originated in Stats. Applied in: 1 domains", ["Medicine"]⟩ : Entry)
        ∈ transform2 [["Bayes", "Stats", "Medicine"]] ∧
    ("Originated in Stats. Applied in: 1 domains" : String)
      = "Originated in " ++ "Stats" ++ ". Applied in: " ++
          toString (["Medicine"] : List String).length ++ " domains" :=
  ⟨by decide, description_derivation.1 [["Bayes", "Stats", "Medicine"]]
    ⟨"Bayes", "Stats", "Originated in Stats. Applied in: 1 domains", ["Medicine"]⟩ (by decide)⟩

/-- C6, counterexample.  A 5-field row whose first field strips to empty
is skipped by the fallback strategy, so not every data row with more
than 3 fields yields a record. -/
theorem fallback_extra_fields_counterexample :
    transform2 [["", "x", "a", "b", "c"]] = [] := by decide

/-- C6, amended.  In the lenient fallback, every data row with fewer
than 3 fields is skipped entirely, and every data row with more than 3
fields whose stripped method, origin, and re-joined domains string are
all non-empty yields exactly one record whose adoptedBy is the
comma-split of the fields from index 2 onward joined back together with
`", "` (the joined string is stripped before splitting, which the
item-level trimming of the comma-split makes immaterial). -/
theorem fallback_field_count_handling :
    (∀ row : List String, row.length < 3 → transform2Row row = none) ∧
    (∀ m o d r rest, pyStrip m ≠ "" → pyStrip o ≠ "" →
      pyStrip (pyJoin ", " (d :: r :: rest)) ≠ "" →
      transform2Row (m :: o :: d :: r :: rest) =
        some { name := pyStrip m
               origin := pyStrip o
               description := "Originated in " ++ pyStrip o ++ ". Applied in: " ++
                 toString (splitClean (pyStrip (pyJoin ", " (d :: r :: rest)))).length ++ " domains"
               adopted_by := splitClean (pyStrip (pyJoin ", " (d :: r :: rest))) }) := by
  constructor
  · intro row hlen
    rcases row with _ | ⟨m, _ | ⟨o, _ | ⟨d, rest⟩⟩⟩
    · rfl
    · rfl
    · rfl
    · simp at hlen
      omega
  · intro m o d r rest hm ho hd
    simp only [transform2Row]
    rw [if_neg]
    simp only [Bool.or_eq_true, beq_iff_eq, not_or]
    exact ⟨⟨hm, ho⟩, hd⟩

/-- C6, witness: E2E scenario 4, a 5-field row with unescaped commas in
the adoption list, plus a 2-field row being skipped. -/
theorem fallback_field_count_handling_witness :
    (([("x" : String), "y"] : List String).length < 3 ∧
      transform2Row ["x", "y"] = none) ∧
    (pyStrip "BayesNet" ≠ "" ∧ pyStrip "Stats" ≠ "" ∧
      pyStrip (pyJoin ", " ["Medicine", " Finance", "Law"]) ≠ "" ∧
      transform2Row ["BayesNet", "Stats", "Medicine", " Finance", "Law"] =
        some { name := pyStrip "BayesNet"
               origin := pyStrip "Stats"
               description := "Originated in " ++ pyStrip "Stats" ++ ". Applied in: " ++
                 toString (splitClean (pyStrip (pyJoin ", " ["Medicine", " Finance", "Law"]))).length ++ " domains"
               adopted_by := splitClean (pyStrip (pyJoin ", " ["Medicine", " Finance", "Law"])) }) :=
  ⟨⟨by decide, fallback_field_count_handling.1 ["x", "y"] (by decide)⟩,
    by decide, by decide, by decide,
    fallback_field_count_handling.2 "BayesNet" "Stats" "Medicine" " Finance" ["Law"]
      (by decide) (by decide) (by decide)⟩

/-!
## Graph-builder claims
-/

/-- Folding `processEntry` over records that all fail the filters leaves
the graph unchanged. -/
theorem foldl_processEntry_of_no_pass (fo fm : Option String) (mc : Nat) :
    ∀ (data : List Entry) (G : Graph),
      (∀ e ∈ data, passes fo fm mc e = false) →
      data.foldl (processEntry fo fm mc) G = G
  | [], G, _ => rfl
  | e :: rest, G, h => by
    rw [List.foldl_cons]
    have he : passes fo fm mc e = false := h e (List.mem_cons_self e rest)
    have hpe : processEntry fo fm mc G e = G := by
      unfold processEntry
      rw [he]
      simp
    rw [hpe]
    exact foldl_processEntry_of_no_pass fo fm mc rest G
      (fun x hx => h x (List.mem_cons_of_mem e hx))

/-- C9, confirmed.  Whenever no record passes the filter combination,
`build_graph` returns the empty graph (zero nodes, zero edges) as a
normal value. -/
theorem build_graph_empty_of_no_pass (data : List Entry) (fo fm : Option String) (mc : Nat)
    (h : ∀ e ∈ data, passes fo fm mc e = false) :
    build_graph data fo fm mc = ⟨[], []⟩ :=
  foldl_processEntry_of_no_pass fo fm mc data ⟨[], []⟩ h

/-- C9, witness: E2E scenario 2, `min_connections = 4` excludes the only
record. -/
theorem build_graph_empty_of_no_pass_witness :
    (∀ e ∈ [(⟨"Bayesian Inference", "Statistics", "d", ["Medicine", "Finance", "Law"]⟩ : Entry)],
      passes none none 4 e = false) ∧
    build_graph [⟨"Bayesian Inference", "Statistics", "d", ["Medicine", "Finance", "Law"]⟩]
        none none 4 = ⟨[], []⟩ :=
  ⟨by decide,
    build_graph_empty_of_no_pass
      [⟨"Bayesian Inference", "Statistics", "d", ["Medicine", "Finance", "Law"]⟩]
      none none 4 (by decide)⟩

/-- The node-key list of a graph. -/
def nodeKeys (G : Graph) : List String := G.nodes.map (fun p => p.1)

/-- Well-formedness maintained by `build_graph`: node keys are distinct. -/
def NodesOk (G : Graph) : Prop := (nodeKeys G).Nodup

/-- `m` is registered as a `Method`-kind node of `G`. -/
def isMethodKey (G : Graph) (m : String) : Prop :=
  ∃ a : NodeAttrs, (m, a) ∈ G.nodes ∧ a.group = "Method"

theorem hasNode_iff {G : Graph} {id : String} :
    G.hasNode id = true ↔ ∃ p ∈ G.nodes, p.1 = id := by
  simp [Graph.hasNode, List.any_eq_true, beq_iff_eq]

theorem nodes_addEdge (G : Graph) (u v : String) (a : EdgeAttrs) :
    (G.addEdge u v a).nodes = G.nodes := rfl

theorem nodeKeys_addNode (G : Graph) (id : String) (a : NodeAttrs) :
    nodeKeys (G.addNode id a) =
      if G.hasNode id then nodeKeys G else nodeKeys G ++ [id] := by
  unfold Graph.addNode nodeKeys
  split
  · simp only [List.map_map]
    refine List.map_congr_left (fun p _ => ?_)
    simp only [Function.comp_apply]
    split
    · rename_i hp
      exact (beq_iff_eq.mp hp).symm
    · rfl
  · simp

theorem nodesOk_addNode {G : Graph} (h : NodesOk G) (id : String) (a : NodeAttrs) :
    NodesOk (G.addNode id a) := by
  unfold NodesOk
  rw [nodeKeys_addNode]
  split
  · exact h
  · rename_i hno
    have hid : id ∉ nodeKeys G := by
      intro hmem
      obtain ⟨p, hp, hp1⟩ := List.mem_map.mp hmem
      exact absurd (hasNode_iff.mpr ⟨p, hp, hp1⟩) (by simp_all)
    have hnd : (nodeKeys G).Nodup := h
    simp [List.nodup_append, hnd, hid]

theorem mem_addNode_self {G : Graph} {id : String} {a b : NodeAttrs} :
    (id, b) ∈ (G.addNode id a).nodes ↔ b = a := by
  unfold Graph.addNode
  split
  · rename_i hhas
    simp only [List.mem_map]
    constructor
    · rintro ⟨p, hp, hfp⟩
      split at hfp
      · injection hfp with h1 h2
        exact h2.symm
      · rename_i hne
        subst hfp
        simp at hne
    · rintro rfl
      obtain ⟨p, hp, hp1⟩ := hasNode_iff.mp hhas
      exact ⟨p, hp, by simp [hp1]⟩
  · rename_i hno
    simp only [List.mem_append, List.mem_singleton, Prod.mk.injEq, true_and]
    constructor
    · rintro (hmem | rfl)
      · exact absurd (hasNode_iff.mpr ⟨(id, b), hmem, rfl⟩) hno
      · rfl
    · rintro rfl
      exact Or.inr rfl

theorem mem_addNode_ne {G : Graph} {id m : String} {a b : NodeAttrs} (hne : m ≠ id) :
    (m, b) ∈ (G.addNode id a).nodes ↔ (m, b) ∈ G.nodes := by
  unfold Graph.addNode
  split
  · simp only [List.mem_map]
    constructor
    · rintro ⟨p, hp, hfp⟩
      split at hfp
      · exact absurd (congrArg Prod.fst hfp).symm (by simpa using hne)
      · exact hfp ▸ hp
    · intro hmem
      exact ⟨(m, b), hmem, by simp [hne]⟩
  · simp only [List.mem_append, List.mem_singleton, Prod.mk.injEq]
    constructor
    · rintro (hmem | ⟨rfl, -⟩)
      · exact hmem
      · exact absurd rfl hne
    · exact fun hmem => Or.inl hmem

theorem isMethodKey_addNode {G : Graph} {id m : String} {a : NodeAttrs} :
    isMethodKey (G.addNode id a) m ↔
      (if m = id then a.group = "Method" else isMethodKey G m) := by
  split
  · rename_i heq
    subst heq
    unfold isMethodKey
    constructor
    · rintro ⟨b, hmem, hg⟩
      exact (mem_addNode_self.mp hmem) ▸ hg
    · intro hg
      exact ⟨a, mem_addNode_self.mpr rfl, hg⟩
  · rename_i hne
    unfold isMethodKey
    constructor
    · rintro ⟨b, hmem, hg⟩
      exact ⟨b, (mem_addNode_ne hne).mp hmem, hg⟩
    · rintro ⟨b, hmem, hg⟩
      exact ⟨b, (mem_addNode_ne hne).mpr hmem, hg⟩

theorem isMethodKey_addEdge {G : Graph} {u v : String} {a : EdgeAttrs} {m : String} :
    isMethodKey (G.addEdge u v a) m ↔ isMethodKey G m := Iff.rfl

theorem not_isMethodKey_of_not_hasNode {G : Graph} {m : String}
    (h : G.hasNode m = false) : ¬ isMethodKey G m := by
  rintro ⟨a, hmem, -⟩
  exact absurd (hasNode_iff.mpr ⟨(m, a), hmem, rfl⟩) (by simp [h])

theorem isMethodKey_guardedFieldAdd {G : Graph} {id m : String} {a : NodeAttrs}
    (hf : a.group = "Field") :
    isMethodKey (if G.hasNode id then G else G.addNode id a) m ↔ isMethodKey G m := by
  split
  · exact Iff.rfl
  · rename_i hno
    rw [isMethodKey_addNode]
    split
    · rename_i heq
      subst heq
      simp only [hf]
      constructor
      · intro hc
        exact absurd hc (by decide)
      · intro hc
        exact absurd hc (not_isMethodKey_of_not_hasNode (by simp_all))
    · exact Iff.rfl

theorem isMethodKey_addAdopters (nm : String) (m : String) :
    ∀ (adopters : List String) (g : Graph),
      isMethodKey (addAdopters nm adopters g) m ↔ isMethodKey g m
  | [], g => Iff.rfl
  | a :: rest, g => by
    unfold addAdopters
    rw [List.foldl_cons]
    have step := isMethodKey_addAdopters nm m rest
      ((if g.hasNode a then g else g.addNode a (adopterNodeAttrs a)).addEdge
        nm a adoptedEdgeAttrs)
    unfold addAdopters at step
    rw [step, isMethodKey_addEdge, isMethodKey_guardedFieldAdd rfl]

theorem isMethodKey_processEntry {fo fm : Option String} {mc : Nat} {G : Graph}
    {e : Entry} {m : String} :
    isMethodKey (processEntry fo fm mc G e) m ↔
      (isMethodKey G m ∨ (passes fo fm mc e = true ∧ m = e.name)) := by
  unfold processEntry
  split
  · rename_i hp
    rw [isMethodKey_addAdopters, isMethodKey_addEdge, isMethodKey_addNode]
    split
    · rename_i heq
      simp [hp, heq, methodNodeAttrs]
    · rename_i hne
      rw [isMethodKey_guardedFieldAdd rfl]
      simp [hne]
  · rename_i hp
    simp at hp
    simp [hp]

theorem isMethodKey_foldl (fo fm : Option String) (mc : Nat) (m : String) :
    ∀ (data : List Entry) (G : Graph),
      isMethodKey (data.foldl (processEntry fo fm mc) G) m ↔
        (isMethodKey G m ∨ m ∈ passingNames data fo fm mc)
  | [], G => by simp [passingNames]
  | e :: rest, G => by
    rw [List.foldl_cons, isMethodKey_foldl fo fm mc m rest]
    rw [isMethodKey_processEntry]
    unfold passingNames
    rw [List.filter_cons]
    cases hp : passes fo fm mc e <;> simp [hp]
    all_goals tauto

/-- In `build_graph`'s result, a name is a `Method` node exactly when it
is the name of some record passing the filters. -/
theorem isMethodKey_build_graph (data : List Entry) (fo fm : Option String) (mc : Nat)
    (m : String) :
    isMethodKey (build_graph data fo fm mc) m ↔ m ∈ passingNames data fo fm mc := by
  unfold build_graph
  rw [isMethodKey_foldl]
  simp [isMethodKey]

theorem nodesOk_guardedAdd {G : Graph} (h : NodesOk G) (id : String) (a : NodeAttrs) :
    NodesOk (if G.hasNode id then G else G.addNode id a) := by
  split
  · exact h
  · exact nodesOk_addNode h id a

theorem nodesOk_addAdopters (nm : String) :
    ∀ (adopters : List String) (g : Graph), NodesOk g →
      NodesOk (addAdopters nm adopters g)
  | [], _, h => h
  | a :: rest, g, h => by
    unfold addAdopters
    rw [List.foldl_cons]
    have step := nodesOk_addAdopters nm rest
      ((if g.hasNode a then g else g.addNode a (adopterNodeAttrs a)).addEdge
        nm a adoptedEdgeAttrs)
    unfold addAdopters at step
    exact step (nodesOk_guardedAdd h a (adopterNodeAttrs a))

theorem nodesOk_processEntry {fo fm : Option String} {mc : Nat} {G : Graph}
    (h : NodesOk G) (e : Entry) : NodesOk (processEntry fo fm mc G e) := by
  unfold processEntry
  split
  · exact nodesOk_addAdopters _ _ _
      (nodesOk_addNode (nodesOk_guardedAdd h _ _) _ _)
  · exact h

theorem nodesOk_build_graph (data : List Entry) (fo fm : Option String) (mc : Nat) :
    NodesOk (build_graph data fo fm mc) := by
  unfold build_graph
  have : ∀ (l : List Entry) (G : Graph), NodesOk G →
      NodesOk (l.foldl (processEntry fo fm mc) G) := by
    intro l
    induction l with
    | nil => exact fun G h => h
    | cons e rest ih =>
      intro G h
      rw [List.foldl_cons]
      exact ih _ (nodesOk_processEntry h e)
  exact this data ⟨[], []⟩ (by simp [NodesOk, nodeKeys])

/-- Attributes are unique per key in a graph with distinct keys. -/
theorem attrs_unique :
    ∀ (l : List (String × NodeAttrs)), (l.map (fun p => p.1)).Nodup →
      ∀ {m : String} {a b : NodeAttrs}, (m, a) ∈ l → (m, b) ∈ l → a = b
  | [], _, _, _, _, ha, _ => absurd ha (List.not_mem_nil _)
  | p :: rest, h, m, a, b, ha, hb => by
    rw [List.map_cons, List.nodup_cons] at h
    rcases List.mem_cons.mp ha with rfl | ha' <;>
      rcases List.mem_cons.mp hb with hb' | hb'
    · exact (congrArg Prod.snd hb').symm
    · exact absurd (List.mem_map.mpr ⟨(m, b), hb', rfl⟩) h.1
    · rw [← hb'] at h
      exact absurd (List.mem_map.mpr ⟨(m, a), ha', rfl⟩) h.1
    · exact attrs_unique rest h.2 ha' hb'

/-- The set of `Method`-node keys. -/
def methodKeyFinset (G : Graph) : Finset String :=
  ((G.nodes.filter (fun p => p.2.group == "Method")).map (fun p => p.1)).toFinset

theorem mem_methodKeyFinset {G : Graph} {m : String} :
    m ∈ methodKeyFinset G ↔ isMethodKey G m := by
  unfold methodKeyFinset isMethodKey
  simp only [List.mem_toFinset, List.mem_map, List.mem_filter, beq_iff_eq]
  constructor
  · rintro ⟨p, ⟨hp, hg⟩, rfl⟩
    exact ⟨p.2, by rwa [Prod.mk.eta], hg⟩
  · rintro ⟨a, hmem, hg⟩
    exact ⟨(m, a), ⟨hmem, hg⟩, rfl⟩

theorem methodNodeCount_eq_card {G : Graph} (h : NodesOk G) :
    methodNodeCount G = (methodKeyFinset G).card := by
  unfold methodNodeCount methodKeyFinset
  have hsub : List.Sublist
      ((G.nodes.filter (fun p => p.2.group == "Method")).map (fun p => p.1))
      (G.nodes.map (fun p => p.1)) :=
    (List.filter_sublist G.nodes).map _
  have hnd : ((G.nodes.filter (fun p => p.2.group == "Method")).map (fun p => p.1)).Nodup :=
    h.sublist hsub
  rw [List.toFinset_card_of_nodup hnd, List.length_map]

theorem passes_mono {fo fm : Option String} {m1 m2 : Nat} {e : Entry}
    (h : m1 ≤ m2) (hp : passes fo fm m2 e = true) : passes fo fm m1 e = true := by
  unfold passes at hp ⊢
  simp only [Bool.and_eq_true, decide_eq_true_eq] at hp ⊢
  exact ⟨⟨hp.1.1, hp.1.2⟩, Nat.le_trans h hp.2⟩

theorem passingNames_mono {data : List Entry} {fo fm : Option String} {m1 m2 : Nat}
    (h : m1 ≤ m2) {m : String} (hm : m ∈ passingNames data fo fm m2) :
    m ∈ passingNames data fo fm m1 := by
  unfold passingNames at hm ⊢
  obtain ⟨e, he, rfl⟩ := List.mem_map.mp hm
  obtain ⟨hed, hep⟩ := List.mem_filter.mp he
  exact List.mem_map.mpr ⟨e, List.mem_filter.mpr ⟨hed, passes_mono h hep⟩, rfl⟩

/-- C8, confirmed.  For a fixed record list and fixed origin/method
filters, raising `min_connections` never increases the number of
`Method` nodes in the built graph. -/
theorem build_graph_method_count_antitone (data : List Entry) (fo fm : Option String)
    (m1 m2 : Nat) (h : m1 ≤ m2) :
    methodNodeCount (build_graph data fo fm m2) ≤
      methodNodeCount (build_graph data fo fm m1) := by
  rw [methodNodeCount_eq_card (nodesOk_build_graph data fo fm m2),
    methodNodeCount_eq_card (nodesOk_build_graph data fo fm m1)]
  apply Finset.card_le_card
  intro m hm
  rw [mem_methodKeyFinset, isMethodKey_build_graph] at hm ⊢
  exact passingNames_mono h hm

/-- C8, witness at a concrete record list and thresholds 1 ≤ 3. -/
theorem build_graph_method_count_antitone_witness :
    (1 : Nat) ≤ 3 ∧
    methodNodeCount (build_graph
        [⟨"M1", "S", "d", ["A", "B", "C"]⟩, ⟨"M2", "S", "d", ["A"]⟩] none none 3) ≤
      methodNodeCount (build_graph
        [⟨"M1", "S", "d", ["A", "B", "C"]⟩, ⟨"M2", "S", "d", ["A"]⟩] none none 1) :=
  ⟨by decide,
    build_graph_method_count_antitone
      [⟨"M1", "S", "d", ["A", "B", "C"]⟩, ⟨"M2", "S", "d", ["A"]⟩] none none 1 3
      (by decide)⟩

theorem nodes_addNode_of_not_has {G : Graph} {id : String} {a : NodeAttrs}
    (h : G.hasNode id = false) :
    (G.addNode id a).nodes = G.nodes ++ [(id, a)] := by
  unfold Graph.addNode
  rw [if_neg (by simp [h])]

theorem mem_nodes_guardedAdd {g : Graph} {id : String} {attrs : NodeAttrs}
    {m : String} {a : NodeAttrs} (h : (m, a) ∈ g.nodes) :
    (m, a) ∈ (if g.hasNode id then g else g.addNode id attrs).nodes := by
  split
  · exact h
  · rename_i hno
    rw [nodes_addNode_of_not_has (by simp_all)]
    exact List.mem_append_left _ h

theorem mem_nodes_addAdopters (nm : String) :
    ∀ (adopters : List String) (g : Graph) {m : String} {a : NodeAttrs},
      (m, a) ∈ g.nodes → (m, a) ∈ (addAdopters nm adopters g).nodes
  | [], _, _, _, h => h
  | x :: rest, g, m, a, h => by
    unfold addAdopters
    rw [List.foldl_cons]
    have h' : (m, a) ∈
        ((if g.hasNode x then g else g.addNode x (adopterNodeAttrs x)).addEdge
          nm x adoptedEdgeAttrs).nodes := by
      rw [nodes_addEdge]
      exact mem_nodes_guardedAdd h
    have step := mem_nodes_addAdopters nm rest _ h'
    unfold addAdopters at step
    exact step

/-- After processing a passing record, its method node carries exactly
the attributes of the (possibly overwriting) method-node insert. -/
theorem method_mem_processEntry {fo fm : Option String} {mc : Nat} {G : Graph}
    {e : Entry} (hp : passes fo fm mc e = true) :
    (e.name, methodNodeAttrs e.name e.origin e.adopted_by)
      ∈ (processEntry fo fm mc G e).nodes := by
  unfold processEntry
  rw [if_pos hp]
  exact mem_nodes_addAdopters _ _ _
    (by rw [nodes_addEdge]; exact mem_addNode_self.mpr rfl)

/-- A node entry survives the processing of any record that either fails
the filters or carries a different method name. -/
theorem mem_nodes_processEntry_preserve {fo fm : Option String} {mc : Nat} {G : Graph}
    {e : Entry} {m : String} {a : NodeAttrs} (h : (m, a) ∈ G.nodes)
    (hname : passes fo fm mc e = true → e.name ≠ m) :
    (m, a) ∈ (processEntry fo fm mc G e).nodes := by
  unfold processEntry
  split
  · rename_i hp
    apply mem_nodes_addAdopters
    rw [nodes_addEdge]
    have hne : m ≠ e.name := fun hc => (hname hp) hc.symm
    exact (mem_addNode_ne hne).mpr (mem_nodes_guardedAdd h)
  · exact h

theorem mem_nodes_foldl_preserve (fo fm : Option String) (mc : Nat) :
    ∀ (l : List Entry) (G : Graph) {m : String} {a : NodeAttrs},
      (m, a) ∈ G.nodes →
      (∀ e ∈ l, passes fo fm mc e = true → e.name ≠ m) →
      (m, a) ∈ (l.foldl (processEntry fo fm mc) G).nodes
  | [], _, _, _, h, _ => h
  | e :: rest, G, m, a, h, hl => by
    rw [List.foldl_cons]
    exact mem_nodes_foldl_preserve fo fm mc rest _
      (mem_nodes_processEntry_preserve h (hl e (List.mem_cons_self e rest)))
      (fun x hx => hl x (List.mem_cons_of_mem e hx))

/-- C7, amended.  For the last record with a given name that passes the
filters (no later passing record shares its name), when its adoptedBy
list has more than 8 entries the unique `Method` node under that name
carries the tooltip listing exactly the first 8 adopters in original
order followed by the `... and N more domains` marker with N the number
of remaining adopters. -/
theorem method_tooltip_truncation (l1 l2 : List Entry) (r : Entry)
    (fo fm : Option String) (mc : Nat)
    (hp : passes fo fm mc r = true)
    (hlast : ∀ r' ∈ l2, passes fo fm mc r' = true → r'.name ≠ r.name)
    (hlen : 8 < r.adopted_by.length) :
    ∃ a : NodeAttrs,
      (r.name, a) ∈ (build_graph (l1 ++ r :: l2) fo fm mc).nodes ∧
      (∀ b : NodeAttrs, (r.name, b) ∈ (build_graph (l1 ++ r :: l2) fo fm mc).nodes → b = a) ∧
      a.group = "Method" ∧
      a.title = "📦 METHOD: " ++ r.name ++ "\n\n🔬 Origin: " ++ r.origin ++
        "\n\n📊 Applied in " ++ toString r.adopted_by.length ++ " domains:\n" ++
        (pyJoin "\n" ((r.adopted_by.take 8).map (fun s => "  • " ++ s)) ++
          "\n  • ... and " ++ toString (r.adopted_by.length - 8) ++ " more domains") := by
  have hmem : (r.name, methodNodeAttrs r.name r.origin r.adopted_by)
      ∈ (build_graph (l1 ++ r :: l2) fo fm mc).nodes := by
    unfold build_graph
    rw [List.foldl_append, List.foldl_cons]
    exact mem_nodes_foldl_preserve fo fm mc l2 _ (method_mem_processEntry hp) hlast
  refine ⟨methodNodeAttrs r.name r.origin r.adopted_by, hmem, ?_, rfl, ?_⟩
  · intro b hb
    exact attrs_unique _ (nodesOk_build_graph (l1 ++ r :: l2) fo fm mc) hb hmem
  · simp only [methodNodeAttrs, methodTooltip]
    rw [if_pos hlen]

/-- C7, witness: a single record with a 10-domain adoption list. -/
theorem method_tooltip_truncation_witness :
    (passes none none 0
        (⟨"M", "S", "d", ["A1", "A2", "A3", "A4", "A5", "A6", "A7", "A8", "A9", "A10"]⟩ : Entry)
      = true) ∧
    (8 < (["A1", "A2", "A3", "A4", "A5", "A6", "A7", "A8", "A9", "A10"] : List String).length) ∧
    ∃ a : NodeAttrs,
      ("M", a) ∈ (build_graph
        ([] ++ (⟨"M", "S", "d", ["A1", "A2", "A3", "A4", "A5", "A6", "A7", "A8", "A9", "A10"]⟩ : Entry) :: [])
        none none 0).nodes ∧
      (∀ b : NodeAttrs, ("M", b) ∈ (build_graph
        ([] ++ (⟨"M", "S", "d", ["A1", "A2", "A3", "A4", "A5", "A6", "A7", "A8", "A9", "A10"]⟩ : Entry) :: [])
        none none 0).nodes → b = a) ∧
      a.group = "Method" ∧
      a.title = "📦 METHOD: " ++ "M" ++ "\n\n🔬 Origin: " ++ "S" ++
        "\n\n📊 Applied in " ++ toString (["A1", "A2", "A3", "A4", "A5", "A6", "A7", "A8", "A9", "A10"] : List String).length ++ " domains:\n" ++
        (pyJoin "\n" (((["A1", "A2", "A3", "A4", "A5", "A6", "A7", "A8", "A9", "A10"] : List String).take 8).map (fun s => "  • " ++ s)) ++
          "\n  • ... and " ++ toString ((["A1", "A2", "A3", "A4", "A5", "A6", "A7", "A8", "A9", "A10"] : List String).length - 8) ++ " more domains") :=
  ⟨by decide, by decide,
    method_tooltip_truncation [] []
      ⟨"M", "S", "d", ["A1", "A2", "A3", "A4", "A5", "A6", "A7", "A8", "A9", "A10"]⟩
      none none 0 (by decide) (fun r' hr' => absurd hr' (List.not_mem_nil r')) (by decide)⟩

/-- C7, counterexample.  A later passing record with the same method
name overwrites the node attributes, so an earlier passing record with
more than 8 adopters need not have its own preview on the node: here the
node `M` carries the tooltip of the 1-adopter record, not the truncated
preview of the 9-adopter record. -/
theorem method_tooltip_truncation_counterexample :
    (((build_graph
        [⟨"M", "S", "d", ["A1", "A2", "A3", "A4", "A5", "A6", "A7", "A8", "A9"]⟩,
         ⟨"M", "S", "d", ["B"]⟩] none none 0).nodes.filter
      (fun p => p.1 == "M")).map (fun p => p.2.title)
      = [methodTooltip "M" "S" ["B"]]) ∧
    methodTooltip "M" "S" ["B"]
      ≠ methodTooltip "M" "S" ["A1", "A2", "A3", "A4", "A5", "A6", "A7", "A8", "A9"] := by
  decide

theorem edges_addNode (G : Graph) (id : String) (a : NodeAttrs) :
    (G.addNode id a).edges = G.edges := rfl

theorem edges_guardedAdd (g : Graph) (id : String) (attrs : NodeAttrs) :
    (if g.hasNode id then g else g.addNode id attrs).edges = g.edges := by
  split
  · rfl
  · rfl

theorem find?_overwrite_of_any {k : String × String} {x : EdgeAttrs} :
    ∀ l : List ((String × String) × EdgeAttrs),
      l.any (fun p => p.1 == k) = true →
      (l.map (fun p => if p.1 == k then (k, x) else p)).find? (fun p => p.1 == k)
        = some (k, x)
  | [], h => by simp at h
  | p :: rest, h => by
    rw [List.map_cons]
    cases hpk : (p.1 == k)
    · rw [if_neg (by simp [hpk])]
      rw [List.find?_cons_of_neg _ (by simp [hpk])]
      rw [List.any_cons] at h
      simp only [hpk, Bool.false_or] at h
      exact find?_overwrite_of_any rest h
    · rw [if_pos (by simp [hpk])]
      rw [List.find?_cons_of_pos _ (by simp)]

theorem find?_append_new {k : String × String} {x : EdgeAttrs} :
    ∀ l : List ((String × String) × EdgeAttrs),
      l.any (fun p => p.1 == k) = false →
      (l ++ [(k, x)]).find? (fun p => p.1 == k) = some (k, x)
  | [], _ => by simp [List.find?_cons_of_pos]
  | p :: rest, h => by
    rw [List.any_cons] at h
    simp only [Bool.or_eq_false_iff] at h
    rw [List.cons_append, List.find?_cons_of_neg _ (by simp [h.1])]
    exact find?_append_new rest h.2

theorem lookupEdge_addEdge_self (G : Graph) (u v : String) (a : EdgeAttrs) :
    (G.addEdge u v a).lookupEdge (u, v) = some a := by
  unfold Graph.addEdge Graph.lookupEdge
  split
  · rename_i hany
    rw [find?_overwrite_of_any G.edges hany]
    rfl
  · rename_i hany
    rw [find?_append_new G.edges (Bool.eq_false_iff.mpr hany)]
    rfl

theorem find?_overwrite_of_ne {k k' : String × String} {x : EdgeAttrs} (hne : k' ≠ k) :
    ∀ l : List ((String × String) × EdgeAttrs),
      (l.map (fun p => if p.1 == k' then (k', x) else p)).find? (fun p => p.1 == k)
        = l.find? (fun p => p.1 == k)
  | [] => rfl
  | p :: rest => by
    rw [List.map_cons]
    cases hpk' : (p.1 == k')
    · rw [if_neg (by simp [hpk'])]
      cases hpk : (p.1 == k)
      · rw [List.find?_cons_of_neg _ (by simp [hpk]),
          List.find?_cons_of_neg _ (by simp [hpk])]
        exact find?_overwrite_of_ne hne rest
      · rw [List.find?_cons_of_pos _ (by simp [hpk]),
          List.find?_cons_of_pos _ (by simp [hpk])]
    · rw [if_pos (by simp [hpk'])]
      have hp1 : p.1 = k' := beq_iff_eq.mp (by simp [hpk'])
      have hpk : (p.1 == k) = false := by
        rw [hp1]
        exact beq_eq_false_iff_ne.mpr hne
      rw [List.find?_cons_of_neg _ (by simp [hne]),
        List.find?_cons_of_neg _ (by simp [hpk])]
      exact find?_overwrite_of_ne hne rest

theorem find?_append_of_ne {k k' : String × String} {x : EdgeAttrs} (hne : k' ≠ k) :
    ∀ l : List ((String × String) × EdgeAttrs),
      (l ++ [(k', x)]).find? (fun p => p.1 == k) = l.find? (fun p => p.1 == k)
  | [] => by
    simp only [List.nil_append, List.find?_nil]
    rw [List.find?_cons_of_neg _ (by simp [hne])]
    rfl
  | p :: rest => by
    rw [List.cons_append]
    cases hpk : (p.1 == k)
    · rw [List.find?_cons_of_neg _ (by simp [hpk]),
        List.find?_cons_of_neg _ (by simp [hpk])]
      exact find?_append_of_ne hne rest
    · rw [List.find?_cons_of_pos _ (by simp [hpk]),
        List.find?_cons_of_pos _ (by simp [hpk])]

theorem lookupEdge_addEdge_ne {G : Graph} {u v : String} {a : EdgeAttrs}
    {k : String × String} (hne : (u, v) ≠ k) :
    (G.addEdge u v a).lookupEdge k = G.lookupEdge k := by
  unfold Graph.addEdge Graph.lookupEdge
  split
  · rw [find?_overwrite_of_ne hne G.edges]
  · rw [find?_append_of_ne hne G.edges]

theorem lookupEdge_addAdopters (nm : String) (k : String × String) :
    ∀ (adopters : List String) (g : Graph),
      (∀ x ∈ adopters, (nm, x) ≠ k) →
      (addAdopters nm adopters g).lookupEdge k = g.lookupEdge k
  | [], _, _ => rfl
  | x :: rest, g, h => by
    unfold addAdopters
    rw [List.foldl_cons]
    have step := lookupEdge_addAdopters nm k rest
      ((if g.hasNode x then g else g.addNode x (adopterNodeAttrs x)).addEdge
        nm x adoptedEdgeAttrs)
      (fun y hy => h y (List.mem_cons_of_mem x hy))
    unfold addAdopters at step
    rw [step, lookupEdge_addEdge_ne (h x (List.mem_cons_self x rest))]
    unfold Graph.lookupEdge
    rw [edges_guardedAdd]

theorem edgeKey_mem_addEdge_self (G : Graph) (u v : String) (a : EdgeAttrs) :
    ∃ ea : EdgeAttrs, ((u, v), ea) ∈ (G.addEdge u v a).edges := by
  unfold Graph.addEdge
  split
  · rename_i hany
    obtain ⟨p, hp, hpk⟩ := List.any_eq_true.mp hany
    exact ⟨a, List.mem_map.mpr ⟨p, hp, by rw [if_pos hpk]⟩⟩
  · exact ⟨a, List.mem_append_right _ (List.mem_singleton.mpr rfl)⟩

theorem edgeKey_persist_addEdge {G : Graph} {k : String × String} (u v : String)
    (a : EdgeAttrs) (h : ∃ ea : EdgeAttrs, (k, ea) ∈ G.edges) :
    ∃ ea : EdgeAttrs, (k, ea) ∈ (G.addEdge u v a).edges := by
  obtain ⟨ea, hmem⟩ := h
  unfold Graph.addEdge
  split
  · by_cases hk : k = (u, v)
    · subst hk
      exact ⟨a, List.mem_map.mpr ⟨((u, v), ea), hmem,
        by rw [if_pos (beq_self_eq_true (u, v))]⟩⟩
    · refine ⟨ea, List.mem_map.mpr ⟨(k, ea), hmem, ?_⟩⟩
      rw [if_neg (by simpa using hk)]
  · exact ⟨ea, List.mem_append_left _ hmem⟩

theorem edgeKey_persist_addAdopters (nm : String) {k : String × String} :
    ∀ (adopters : List String) (g : Graph),
      (∃ ea : EdgeAttrs, (k, ea) ∈ g.edges) →
      ∃ ea : EdgeAttrs, (k, ea) ∈ (addAdopters nm adopters g).edges
  | [], _, h => h
  | x :: rest, g, h => by
    unfold addAdopters
    rw [List.foldl_cons]
    have h' : ∃ ea : EdgeAttrs, (k, ea) ∈
        ((if g.hasNode x then g else g.addNode x (adopterNodeAttrs x)).addEdge
          nm x adoptedEdgeAttrs).edges := by
      apply edgeKey_persist_addEdge
      rw [edges_guardedAdd]
      exact h
    have step := edgeKey_persist_addAdopters nm rest _ h'
    unfold addAdopters at step
    exact step

theorem edgeKey_persist_processEntry {fo fm : Option String} {mc : Nat} {G : Graph}
    {e : Entry} {k : String × String} (h : ∃ ea : EdgeAttrs, (k, ea) ∈ G.edges) :
    ∃ ea : EdgeAttrs, (k, ea) ∈ (processEntry fo fm mc G e).edges := by
  unfold processEntry
  split
  · apply edgeKey_persist_addAdopters
    apply edgeKey_persist_addEdge
    rw [edges_addNode, edges_guardedAdd]
    exact h
  · exact h

theorem edgeKey_persist_foldl (fo fm : Option String) (mc : Nat) :
    ∀ (l : List Entry) (G : Graph) {k : String × String},
      (∃ ea : EdgeAttrs, (k, ea) ∈ G.edges) →
      ∃ ea : EdgeAttrs, (k, ea) ∈ (l.foldl (processEntry fo fm mc) G).edges
  | [], _, _, h => h
  | e :: rest, G, k, h => by
    rw [List.foldl_cons]
    exact edgeKey_persist_foldl fo fm mc rest _ (edgeKey_persist_processEntry h)

/-- Processing a passing record inserts the `origin → method` edge key. -/
theorem originEdge_mem_processEntry {fo fm : Option String} {mc : Nat} {G : Graph}
    {e : Entry} (hp : passes fo fm mc e = true) :
    ∃ ea : EdgeAttrs, ((e.origin, e.name), ea) ∈ (processEntry fo fm mc G e).edges := by
  unfold processEntry
  rw [if_pos hp]
  exact edgeKey_persist_addAdopters _ _ _ (edgeKey_mem_addEdge_self _ _ _ _)

/-- C10, counterexample.  For the record `A` originating in `A` and also
adopted by `A`, the adopter loop overwrites the self-loop's attributes,
so the final self-loop is labeled `Adopted By`, not `Originated In` as
the claim states. -/
theorem self_named_record_counterexample :
    ((build_graph [⟨"A", "A", "d", ["A"]⟩] none none 0).edges.map
      (fun p => (p.1, p.2.title)) = [(("A", "A"), "Adopted By")]) ∧
    ((build_graph [⟨"A", "A", "d", ["A"]⟩] none none 0).nodes.map
      (fun p => (p.1, p.2.group)) = [("A", "Method")]) := by
  decide

/-- C10, amended.  A passing record whose origin equals its name yields
a single node under that string whose kind is `Method` (the unguarded
method insert overwrites the origin's `Field` attributes) together with
a self-loop edge; in the graph built from that record alone the
self-loop is labeled `Originated In` provided the record's adoptedBy
does not contain the name (otherwise the adopter-edge insert relabels it
`Adopted By`); and guarded `Field` inserts never overwrite a `Method`
node's kind: a node's kind is `Method` exactly when its key names a
passing record. -/
theorem self_named_record_behavior :
    (∀ (data : List Entry) (fo fm : Option String) (mc : Nat) (r : Entry),
      r ∈ data → passes fo fm mc r = true → r.origin = r.name →
      (∃ a : NodeAttrs, (r.name, a) ∈ (build_graph data fo fm mc).nodes ∧
        a.group = "Method" ∧
        ∀ b : NodeAttrs, (r.name, b) ∈ (build_graph data fo fm mc).nodes → b = a) ∧
      (∃ ea : EdgeAttrs, ((r.name, r.name), ea) ∈ (build_graph data fo fm mc).edges)) ∧
    (∀ (fo fm : Option String) (mc : Nat) (r : Entry),
      passes fo fm mc r = true → r.origin = r.name → r.name ∉ r.adopted_by →
      (build_graph [r] fo fm mc).lookupEdge (r.name, r.name) = some originatedEdgeAttrs) ∧
    (∀ (data : List Entry) (fo fm : Option String) (mc : Nat) (m : String) (a : NodeAttrs),
      (m, a) ∈ (build_graph data fo fm mc).nodes →
      (a.group = "Method" ↔ m ∈ passingNames data fo fm mc)) := by
  refine ⟨?_, ?_, ?_⟩
  · intro data fo fm mc r hr hp horig
    constructor
    · have hkey : isMethodKey (build_graph data fo fm mc) r.name :=
        (isMethodKey_build_graph data fo fm mc r.name).mpr
          (List.mem_map.mpr ⟨r, List.mem_filter.mpr ⟨hr, hp⟩, rfl⟩)
      obtain ⟨a, hmem, hg⟩ := hkey
      exact ⟨a, hmem, hg,
        fun b hb => attrs_unique _ (nodesOk_build_graph data fo fm mc) hb hmem⟩
    · obtain ⟨l1, l2, rfl⟩ := List.append_of_mem hr
      unfold build_graph
      rw [List.foldl_append, List.foldl_cons]
      refine edgeKey_persist_foldl fo fm mc l2 _ ?_
      have := originEdge_mem_processEntry
        (G := l1.foldl (processEntry fo fm mc) ⟨[], []⟩) (e := r) hp
      rwa [horig] at this
  · intro fo fm mc r hp horig hnotin
    show (processEntry fo fm mc ⟨[], []⟩ r).lookupEdge (r.name, r.name)
      = some originatedEdgeAttrs
    unfold processEntry
    rw [if_pos hp]
    rw [lookupEdge_addAdopters r.name (r.name, r.name) r.adopted_by _
      (fun x hx => by
        intro hc
        exact hnotin (by rw [(Prod.mk.injEq ..).mp hc |>.2] at hx; exact hx))]
    rw [horig, lookupEdge_addEdge_self]
  · intro data fo fm mc m a hmem
    constructor
    · intro hg
      exact (isMethodKey_build_graph data fo fm mc m).mp ⟨a, hmem, hg⟩
    · intro hpn
      obtain ⟨a', hmem', hg'⟩ := (isMethodKey_build_graph data fo fm mc m).mpr hpn
      rw [attrs_unique _ (nodesOk_build_graph data fo fm mc) hmem hmem']
      exact hg'

/-- C10, witness: a self-originating record among other records. -/
theorem self_named_record_behavior_witness :
    ((⟨"A", "A", "d", ["X"]⟩ : Entry) ∈
        [(⟨"A", "A", "d", ["X"]⟩ : Entry), ⟨"M", "S", "d", ["A"]⟩] ∧
      passes none none 0 (⟨"A", "A", "d", ["X"]⟩ : Entry) = true ∧
      (⟨"A", "A", "d", ["X"]⟩ : Entry).origin = (⟨"A", "A", "d", ["X"]⟩ : Entry).name) ∧
    ((∃ a : NodeAttrs,
        ("A", a) ∈ (build_graph [(⟨"A", "A", "d", ["X"]⟩ : Entry), ⟨"M", "S", "d", ["A"]⟩]
          none none 0).nodes ∧
        a.group = "Method" ∧
        ∀ b : NodeAttrs, ("A", b) ∈ (build_graph
          [(⟨"A", "A", "d", ["X"]⟩ : Entry), ⟨"M", "S", "d", ["A"]⟩] none none 0).nodes →
          b = a) ∧
      (∃ ea : EdgeAttrs, (("A", "A"), ea) ∈ (build_graph
        [(⟨"A", "A", "d", ["X"]⟩ : Entry), ⟨"M", "S", "d", ["A"]⟩] none none 0).edges)) ∧
    (build_graph [(⟨"A", "A", "d", ["X"]⟩ : Entry)] none none 0).lookupEdge ("A", "A")
      = some originatedEdgeAttrs :=
  ⟨⟨by decide, by decide, by decide⟩,
    self_named_record_behavior.1
      [(⟨"A", "A", "d", ["X"]⟩ : Entry), ⟨"M", "S", "d", ["A"]⟩] none none 0
      ⟨"A", "A", "d", ["X"]⟩ (by decide) (by decide) (by decide),
    self_named_record_behavior.2.1 none none 0 ⟨"A", "A", "d", ["X"]⟩
      (by decide) (by decide) (by decide)⟩

/-!
## Statistics claims
-/

theorem firstIdx_cons_self (x : String) (xs : List String) :
    firstIdx (x :: xs) x = 0 := by
  simp [firstIdx, List.findIdx_cons]

theorem firstIdx_cons_ne {a x : String} (xs : List String) (h : a ≠ x) :
    firstIdx (x :: xs) a = firstIdx xs a + 1 := by
  simp only [firstIdx, List.findIdx_cons]
  rw [show (x == a) = false from beq_eq_false_iff_ne.mpr (fun hc => h hc.symm)]
  rfl

theorem mem_uniqueInOrder {a : String} :
    ∀ {l : List String}, a ∈ uniqueInOrder l → a ∈ l := by
  intro l
  induction l with
  | nil => simp [uniqueInOrder]
  | cons x xs ih =>
    intro h
    rcases List.mem_cons.mp h with rfl | h'
    · exact List.mem_cons_self a xs
    · exact List.mem_cons_of_mem x (ih (List.mem_of_mem_filter h'))

/-- The distinct values in order of first appearance are strictly
ordered by their first-occurrence index. -/
theorem pairwise_firstIdx_uniqueInOrder :
    ∀ l : List String,
      (uniqueInOrder l).Pairwise (fun a b => firstIdx l a < firstIdx l b)
  | [] => List.Pairwise.nil
  | x :: xs => by
    unfold uniqueInOrder
    rw [List.pairwise_cons]
    constructor
    · intro b hb
      have hbne : b ≠ x := by
        have := List.of_mem_filter hb
        simpa using this
      rw [firstIdx_cons_self, firstIdx_cons_ne xs hbne]
      exact Nat.succ_pos _
    · have ih := pairwise_firstIdx_uniqueInOrder xs
      have hsub : ((uniqueInOrder xs).filter (fun y => y != x)).Pairwise
          (fun a b => firstIdx xs a < firstIdx xs b) :=
        List.Pairwise.sublist (List.filter_sublist _) ih
      refine hsub.imp_of_mem ?_
      intro a b ha hb hab
      have hane : a ≠ x := by simpa using List.of_mem_filter ha
      have hbne : b ≠ x := by simpa using List.of_mem_filter hb
      rw [firstIdx_cons_ne xs hane, firstIdx_cons_ne xs hbne]
      exact Nat.succ_lt_succ hab

/-- Stability of the count-descending insertion: inserting an element
that precedes (in the secondary order `s`) everything in an already
ranked list keeps the list ranked. -/
theorem pairwise_rank_orderedInsert {s : (String × Nat) → (String × Nat) → Prop}
    (x : String × Nat) :
    ∀ m : List (String × Nat),
      m.Pairwise (fun p q => q.2 < p.2 ∨ (p.2 = q.2 ∧ s p q)) →
      (∀ y ∈ m, s x y) →
      (List.orderedInsert byCountGE x m).Pairwise
        (fun p q => q.2 < p.2 ∨ (p.2 = q.2 ∧ s p q))
  | [], _, _ => List.pairwise_singleton _ x
  | y :: ys, hm, hx => by
    simp only [List.orderedInsert]
    split
    · rename_i hr
      have hyx : y.2 ≤ x.2 := hr
      rw [List.pairwise_cons]
      refine ⟨?_, hm⟩
      intro z hz
      have hzle : z.2 ≤ y.2 := by
        rcases List.mem_cons.mp hz with rfl | hz'
        · exact Nat.le_refl _
        · rcases (List.pairwise_cons.mp hm).1 z hz' with hlt | heq
          · exact Nat.le_of_lt hlt
          · exact Nat.le_of_eq heq.1.symm
      by_cases hlt : z.2 < x.2
      · exact Or.inl hlt
      · exact Or.inr ⟨Nat.le_antisymm (Nat.le_of_not_lt hlt)
          (Nat.le_trans hzle hyx), hx z hz⟩
    · rename_i hr
      have hxy : x.2 < y.2 := Nat.lt_of_not_le hr
      rw [List.pairwise_cons]
      constructor
      · intro z hz
        have hz' := (List.perm_orderedInsert byCountGE x ys).mem_iff.mp hz
        rcases List.mem_cons.mp hz' with rfl | hzys
        · exact Or.inl hxy
        · exact (List.pairwise_cons.mp hm).1 z hzys
      · exact pairwise_rank_orderedInsert x ys (List.pairwise_cons.mp hm).2
          (fun y' hy' => hx y' (List.mem_cons_of_mem y hy'))

/-- The insertion sort over the count-descending order is stable: from a
list pairwise ordered by `s` it produces a list ranked by count with
ties resolved by `s`. -/
theorem pairwise_rank_insertionSort {s : (String × Nat) → (String × Nat) → Prop} :
    ∀ m : List (String × Nat), m.Pairwise s →
      (List.insertionSort byCountGE m).Pairwise
        (fun p q => q.2 < p.2 ∨ (p.2 = q.2 ∧ s p q))
  | [], _ => List.Pairwise.nil
  | x :: xs, h => by
    simp only [List.insertionSort]
    have h' := List.pairwise_cons.mp h
    apply pairwise_rank_orderedInsert x _ (pairwise_rank_insertionSort xs h'.2)
    intro y hy
    exact h'.1 y ((List.perm_insertionSort byCountGE xs).mem_iff.mp hy)

/-- The modelled `value_counts`: a permutation of the first-appearance
(value, multiplicity) pairs, ranked by count descending with ties in
first-appearance order. -/
theorem valueCounts_spec (l : List String) :
    (valueCounts l).Perm (pairsOf l) ∧
    (valueCounts l).Pairwise (fun p q => q.2 < p.2 ∨
      (p.2 = q.2 ∧ firstIdx l p.1 < firstIdx l q.1)) := by
  constructor
  · exact List.perm_insertionSort byCountGE (pairsOf l)
  · apply pairwise_rank_insertionSort
    unfold pairsOf
    rw [List.pairwise_map]
    exact pairwise_firstIdx_uniqueInOrder l

/-- C3, confirmed.  For every non-empty record list, `topOrigins` is the
first five entries of a ranking of the distinct origins paired with
their record counts, sorted by count descending with ties broken by
first-encountered order, and `topAdopters` likewise for the occurrences
across all records' adoptedBy lists. -/
theorem calculate_statistics_top5 (data : List Entry) (h : data ≠ []) :
    (∃ full : List (String × Nat),
      (calculate_statistics data).top_origins = full.take 5 ∧
      full.Perm ((uniqueInOrder (data.map (fun e => e.origin))).map
        (fun k => (k, (data.map (fun e => e.origin)).count k))) ∧
      full.Pairwise (fun p q => q.2 < p.2 ∨
        (p.2 = q.2 ∧ firstIdx (data.map (fun e => e.origin)) p.1
          < firstIdx (data.map (fun e => e.origin)) q.1))) ∧
    (∃ full : List (String × Nat),
      (calculate_statistics data).top_adopters = full.take 5 ∧
      full.Perm ((uniqueInOrder ((data.map (fun e => e.adopted_by)).flatten)).map
        (fun k => (k, ((data.map (fun e => e.adopted_by)).flatten).count k))) ∧
      full.Pairwise (fun p q => q.2 < p.2 ∨
        (p.2 = q.2 ∧ firstIdx ((data.map (fun e => e.adopted_by)).flatten) p.1
          < firstIdx ((data.map (fun e => e.adopted_by)).flatten) q.1))) := by
  have hne : data.isEmpty = false := by
    rcases data with _ | ⟨e, rest⟩
    · exact absurd rfl h
    · rfl
  constructor
  · refine ⟨valueCounts (data.map (fun e => e.origin)), ?_, ?_, ?_⟩
    · simp [calculate_statistics, hne]
    · exact (valueCounts_spec (data.map (fun e => e.origin))).1
    · exact (valueCounts_spec (data.map (fun e => e.origin))).2
  · refine ⟨valueCounts ((data.map (fun e => e.adopted_by)).flatten), ?_, ?_, ?_⟩
    · simp [calculate_statistics, hne]
    · exact (valueCounts_spec ((data.map (fun e => e.adopted_by)).flatten)).1
    · exact (valueCounts_spec ((data.map (fun e => e.adopted_by)).flatten)).2

/-- C3, witness at a record list with a frequency tie (`Stats` and
`Bio`-originated counts tie nowhere, adopters `A` and `B` tie). -/
theorem calculate_statistics_top5_witness :
    ([(⟨"M1", "Stats", "d", ["A", "B"]⟩ : Entry), ⟨"M2", "Bio", "d", ["A"]⟩,
        ⟨"M3", "Stats", "d", ["B"]⟩] ≠ []) ∧
    ((∃ full : List (String × Nat),
      (calculate_statistics [(⟨"M1", "Stats", "d", ["A", "B"]⟩ : Entry), ⟨"M2", "Bio", "d", ["A"]⟩,
        ⟨"M3", "Stats", "d", ["B"]⟩]).top_origins = full.take 5 ∧
      full.Perm ((uniqueInOrder ([(⟨"M1", "Stats", "d", ["A", "B"]⟩ : Entry), ⟨"M2", "Bio", "d", ["A"]⟩,
        ⟨"M3", "Stats", "d", ["B"]⟩].map (fun e => e.origin))).map
        (fun k => (k, ([(⟨"M1", "Stats", "d", ["A", "B"]⟩ : Entry), ⟨"M2", "Bio", "d", ["A"]⟩,
          ⟨"M3", "Stats", "d", ["B"]⟩].map (fun e => e.origin)).count k))) ∧
      full.Pairwise (fun p q => q.2 < p.2 ∨
        (p.2 = q.2 ∧ firstIdx ([(⟨"M1", "Stats", "d", ["A", "B"]⟩ : Entry), ⟨"M2", "Bio", "d", ["A"]⟩,
            ⟨"M3", "Stats", "d", ["B"]⟩].map (fun e => e.origin)) p.1
          < firstIdx ([(⟨"M1", "Stats", "d", ["A", "B"]⟩ : Entry), ⟨"M2", "Bio", "d", ["A"]⟩,
            ⟨"M3", "Stats", "d", ["B"]⟩].map (fun e => e.origin)) q.1))) ∧
    (∃ full : List (String × Nat),
      (calculate_statistics [(⟨"M1", "Stats", "d", ["A", "B"]⟩ : Entry), ⟨"M2", "Bio", "d", ["A"]⟩,
        ⟨"M3", "Stats", "d", ["B"]⟩]).top_adopters = full.take 5 ∧
      full.Perm ((uniqueInOrder (([(⟨"M1", "Stats", "d", ["A", "B"]⟩ : Entry), ⟨"M2", "Bio", "d", ["A"]⟩,
        ⟨"M3", "Stats", "d", ["B"]⟩].map (fun e => e.adopted_by)).flatten)).map
        (fun k => (k, (([(⟨"M1", "Stats", "d", ["A", "B"]⟩ : Entry), ⟨"M2", "Bio", "d", ["A"]⟩,
          ⟨"M3", "Stats", "d", ["B"]⟩].map (fun e => e.adopted_by)).flatten).count k))) ∧
      full.Pairwise (fun p q => q.2 < p.2 ∨
        (p.2 = q.2 ∧ firstIdx (([(⟨"M1", "Stats", "d", ["A", "B"]⟩ : Entry), ⟨"M2", "Bio", "d", ["A"]⟩,
            ⟨"M3", "Stats", "d", ["B"]⟩].map (fun e => e.adopted_by)).flatten) p.1
          < firstIdx (([(⟨"M1", "Stats", "d", ["A", "B"]⟩ : Entry), ⟨"M2", "Bio", "d", ["A"]⟩,
            ⟨"M3", "Stats", "d", ["B"]⟩].map (fun e => e.adopted_by)).flatten) q.1)))) :=
  ⟨by decide,
    calculate_statistics_top5
      [(⟨"M1", "Stats", "d", ["A", "B"]⟩ : Entry), ⟨"M2", "Bio", "d", ["A"]⟩,
        ⟨"M3", "Stats", "d", ["B"]⟩] (by decide)⟩
